import Mathlib

/-!
Shallow embedding of the `retry` package of hamba/testutils.

The package runs a test body repeatedly under a retry policy.  Each attempt
records its state in a shared `SubT` (log buffer, failed flag, cleanup stack);
`FailNow` marks the attempt failed and terminates the attempt's goroutine via
`runtime.Goexit`, which we model as an abort flag that stops interpretation of
the remaining statements of the body.  Durations and times are modelled as
`Int` (Go `time.Duration` / nanoseconds); the `Timer` policy receives the
current time explicitly at each call.
-/

namespace Retry

/-- Model of `strings.TrimRight(s, "\x5cn")`: remove all trailing newline
characters.  Used by `SubT.log` on every recorded line. -/
def trimRightNL (s : String) : String :=
  String.mk ((s.toList.reverse.dropWhile (fun c => c == '\n')).reverse)

/-- Model of `fmt.Sprintln(args...)` for string operands: operands joined by
single spaces, with a newline appended. -/
def sprintln (args : List String) : String :=
  String.intercalate " " args ++ "\n"

/-- Cleanup-body statements: the actions a registered cleanup function may
perform against the shared `SubT` (log a line, mark failed, register a further
cleanup).  A cleanup body is a `List CStmt`. -/
inductive CStmt where
  | clog (args : List String)
  | cfail
  | ccleanup (fn : List CStmt)

/-- Holds when the cleanup statement does not register a further cleanup. -/
def CStmt.isPlain : CStmt → Bool
  | .ccleanup _ => false
  | _ => true

/-- Model of `SubT` (src/retry/retry.go lines 38-43): the shared per-attempt state.
The mutex is modelled separately (see the lock-discipline section). -/
structure SubT where
  logs : List String
  failed : Bool
  cleanups : List (List CStmt)

/-- The zero value `&SubT\x7b\x7d` allocated by `RunWith`. -/
def SubT.init : SubT := ⟨[], false, []⟩

/-- Model of `SubT.reset` (retry.go lines 45-52): clears logs, failed flag and the
cleanup stack.  The result does not depend on the previous state. -/
def SubT.reset (_t : SubT) : SubT := ⟨[], false, []⟩

/-- Model of `SubT.log` (retry.go lines 54-59): append the line, trimmed of trailing
newlines, to the buffer. -/
def SubT.log (t : SubT) (s : String) : SubT :=
  { t with logs := t.logs ++ [trimRightNL s] }

/-- Model of `SubT.Cleanup` (retry.go lines 79-84): push a cleanup function. -/
def SubT.Cleanup (t : SubT) (fn : List CStmt) : SubT :=
  { t with cleanups := t.cleanups ++ [fn] }

/-- Model of `SubT.Log` (retry.go lines 87-89): `t.log(fmt.Sprintln(args...))`. -/
def SubT.Log (t : SubT) (args : List String) : SubT :=
  t.log (sprintln args)

/-- Model of `SubT.Logf` (retry.go lines 92-94): `t.log(fmt.Sprintf(format, args...))`;
the formatted result is carried as the string `s`. -/
def SubT.Logf (t : SubT) (s : String) : SubT :=
  t.log s

/-- Model of `SubT.Fail` (retry.go lines 121-123): `t.failed = true`. -/
def SubT.Fail (t : SubT) : SubT :=
  { t with failed := true }

/-- State effect of `SubT.FailNow` (retry.go lines 126-129): `t.failed = true`
followed by `runtime.Goexit()`; the Goexit control effect is the abort flag
returned by the interpreter. -/
def SubT.FailNow (t : SubT) : SubT :=
  { t with failed := true }

/-- Model of `SubT.Error` (retry.go lines 97-100): log then `Fail`. -/
def SubT.Error (t : SubT) (args : List String) : SubT :=
  (t.log (sprintln args)).Fail

/-- Model of `SubT.Errorf` (retry.go lines 103-106). -/
def SubT.Errorf (t : SubT) (s : String) : SubT :=
  (t.log s).Fail

/-- State effect of `SubT.Fatal` (retry.go lines 109-112): log then `FailNow`. -/
def SubT.Fatal (t : SubT) (args : List String) : SubT :=
  (t.log (sprintln args)).FailNow

/-- State effect of `SubT.Fatalf` (retry.go lines 115-118). -/
def SubT.Fatalf (t : SubT) (s : String) : SubT :=
  (t.log s).FailNow

/-- Test-body statements: the `SubT` methods a body may invoke, in the order
written in the body. -/
inductive Stmt where
  | slog (args : List String)
  | slogf (s : String)
  | serror (args : List String)
  | serrorf (s : String)
  | sfatal (args : List String)
  | sfatalf (s : String)
  | sfail
  | sfailNow
  | scleanup (fn : List CStmt)

/-- Interpreter for a test body: executes statements in order against the
`SubT`; the returned `Bool` is `true` when the body aborted via
`runtime.Goexit` (`FailNow`, `Fatal`, `Fatalf`), in which case the remaining
statements are not executed. -/
def runStmts : List Stmt → SubT → SubT × Bool
  | [], t => (t, false)
  | .slog args :: rest, t => runStmts rest (t.Log args)
  | .slogf s :: rest, t => runStmts rest (t.Logf s)
  | .serror args :: rest, t => runStmts rest (t.Error args)
  | .serrorf s :: rest, t => runStmts rest (t.Errorf s)
  | .sfatal args :: _, t => (t.Fatal args, true)
  | .sfatalf s :: _, t => (t.Fatalf s, true)
  | .sfail :: rest, t => runStmts rest t.Fail
  | .sfailNow :: _, t => (t.FailNow, true)
  | .scleanup fn :: rest, t => runStmts rest (t.Cleanup fn)

/-- Interpreter for one cleanup body (a registered `func()`): cleanup bodies
log, mark failure, or register further cleanups; they have no Goexit. -/
def runCStmts : List CStmt → SubT → SubT
  | [], t => t
  | .clog args :: rest, t => runCStmts rest (t.Log args)
  | .cfail :: rest, t => runCStmts rest t.Fail
  | .ccleanup fn :: rest, t => runCStmts rest (t.Cleanup fn)

/-- Weight of a cleanup-statement list: each `ccleanup fn` contributes
`1 + weight fn`, the exact cost of later popping and running `fn`. -/
def cweightList : List CStmt → Nat
  | [] => 0
  | .ccleanup fn :: rest => 1 + cweightList fn + cweightList rest
  | _ :: rest => cweightList rest

/-- Total number of pops the cleanup loop will perform on this stack: each
entry costs one pop plus the pops generated by the cleanups it registers. -/
def stackMeasure : List (List CStmt) → Nat
  | [] => 0
  | b :: rest => 1 + cweightList b + stackMeasure rest

/-- The loop of `SubT.runCleanups` (retry.go lines 61-76), fuelled: take the
last (most recently registered) cleanup off the stack, run it, repeat until
the stack is empty.  Also returns the trace of cleanup bodies invoked, in
invocation order.  Running a cleanup of weight `w` pops one entry
(cost `1 + w`) and pushes entries of total cost `w`, so each iteration
lowers `stackMeasure` by exactly one and `stackMeasure` fuel is exact. -/
def runCleanupsFuel : Nat → SubT → SubT × List (List CStmt)
  | 0, t => (t, [])
  | fuel + 1, t =>
    match t.cleanups.getLast? with
    | none => (t, [])
    | some cleanup =>
      let t1 : SubT := { t with cleanups := t.cleanups.dropLast }
      let r := runCleanupsFuel fuel (runCStmts cleanup t1)
      (r.1, cleanup :: r.2)

/-- Model of `SubT.runCleanups` (retry.go lines 61-76): run the loop with its exact
fuel. -/
def SubT.runCleanups (t : SubT) : SubT × List (List CStmt) :=
  runCleanupsFuel (stackMeasure t.cleanups) t

/-- One attempt of `RunWith` (retry.go lines 145-157): reset the shared
`SubT`, run the body in its own goroutine (joined via the wait group), with
`runCleanups` deferred so it runs whether or not the body aborted. -/
def attempt (fn : List Stmt) (tt : SubT) : SubT :=
  let t0 := tt.reset
  let r := runStmts fn t0
  r.1.runCleanups.1

/-- Calls `RunWith` makes on the outer `TestingT` after the loop. -/
inductive OuterCall where
  | olog (s : String)
  | ofailNow

/-- The replay at the end of `RunWith` (retry.go lines 165-170): `t.Log` for
every buffered line of the last attempt, then `t.FailNow()` when it failed. -/
def replayCalls (tt : SubT) : List OuterCall :=
  tt.logs.map OuterCall.olog ++ (if tt.failed then [OuterCall.ofailNow] else [])

/-- Observable events of the orchestration loop: a `p.Next()` call with its
result, and a body invocation with the attempt's final failed flag. -/
inductive Event where
  | nextCall (res : Bool)
  | bodyRun (failedRes : Bool)

/-- The loop of `RunWith` (retry.go lines 144-163).  The policy is modelled
extensionally: `p i` is the result of the `i`-th `Next()` call.  `fuel`
bounds the number of iterations; `none` means the bound was hit before the
loop ended.  Returns the shared `SubT` after the loop and the event trace. -/
def runWithLoop (fn : List Stmt) (p : Nat → Bool) :
    Nat → Nat → SubT → Option (SubT × List Event)
  | 0, _, _ => none
  | fuel + 1, i, tt =>
    if p i then
      let tt1 := attempt fn tt
      if tt1.failed then
        match runWithLoop fn p fuel (i + 1) tt1 with
        | none => none
        | some (ttf, tr) =>
          some (ttf, Event.nextCall true :: Event.bodyRun true :: tr)
      else
        some (tt1, [Event.nextCall true, Event.bodyRun false])
    else
      some (tt, [Event.nextCall false])

/-- Model of `RunWith` (retry.go lines 137-171): run the loop from a zero `SubT`,
then replay the last attempt's logs and failure into the outer context.
Returns the outer-context calls and the loop's event trace. -/
def RunWith (p : Nat → Bool) (fn : List Stmt) (fuel : Nat) :
    Option (List OuterCall × List Event) :=
  match runWithLoop fn p fuel 0 SubT.init with
  | none => none
  | some (tt, tr) => some (replayCalls tt, tr)

/-- Model of `Counter` (retry.go lines 182-187); Go `int` and `time.Duration` both
modelled as `Int`. -/
structure Counter where
  attempts : Int
  sleep : Int
  count : Int

/-- Model of `NewCounter` (retry.go lines 190-195): `count` starts at its zero value. -/
def NewCounter (attempts sleep : Int) : Counter :=
  ⟨attempts, sleep, 0⟩

/-- Model of `Counter.Next` (retry.go lines 198-209): result, successor state, and the
duration slept inside the call (`none` when no sleep happened). -/
def Counter.Next (c : Counter) : Bool × Counter × Option Int :=
  if c.count ≥ c.attempts then
    (false, c, none)
  else if c.count > 0 then
    (true, { c with count := c.count + 1 }, some c.sleep)
  else
    (true, { c with count := c.count + 1 }, none)

/-- Model of `Timer` (retry.go lines 212-217): `stop = none` models the zero
`time.Time`. -/
structure Timer where
  timeout : Int
  sleep : Int
  stop : Option Int

/-- Model of `NewTimer` (retry.go lines 220-225). -/
def NewTimer (timeout sleep : Int) : Timer :=
  ⟨timeout, sleep, none⟩

/-- Model of `Timer.Next` (retry.go lines 228-240), with the current time `now`
passed explicitly: on the first call record `now + timeout` and permit; after
that deny once `now` is past the recorded stop time, otherwise sleep and
permit. -/
def Timer.Next (t : Timer) (now : Int) : Bool × Timer × Option Int :=
  match t.stop with
  | none => (true, { t with stop := some (now + t.timeout) }, none)
  | some s =>
    if now > s then (false, t, none)
    else (true, t, some t.sleep)

/-- The results and sleeps of `n` successive `Next()` calls on a counter. -/
def counterCalls : Counter → Nat → List (Bool × Option Int)
  | _, 0 => []
  | c, n + 1 =>
    let r := c.Next
    (r.1, r.2.2) :: counterCalls r.2.1 n

/-- The results and sleeps of successive `Next()` calls on a timer, one call
per entry of the list of call times. -/
def timerCalls : Timer → List Int → List (Bool × Option Int)
  | _, [] => []
  | t, now :: rest =>
    let r := t.Next now
    (r.1, r.2.2) :: timerCalls r.2.1 rest

/-- Just the boolean results of `counterCalls`. -/
def counterResults (c : Counter) (n : Nat) : List Bool :=
  (counterCalls c n).map (fun x => x.1)

/-- Just the boolean results of `timerCalls`. -/
def timerResults (t : Timer) (ts : List Int) : List Bool :=
  (timerCalls t ts).map (fun x => x.1)

/-- Holds on body-invocation events. -/
def Event.isBodyRun : Event → Bool
  | .bodyRun _ => true
  | _ => false

/-- Holds on `Next()` calls that returned true (permitted an attempt). -/
def Event.isPermit : Event → Bool
  | .nextCall true => true
  | _ => false

/-- The shapes an event trace of the `RunWith` loop can take: the loop ends
with a denied `Next()` call or with a passing attempt, and every failed
attempt is followed by another policy query. -/
inductive ShapeOK : List Event → Prop where
  | stop : ShapeOK [Event.nextCall false]
  | success : ShapeOK [Event.nextCall true, Event.bodyRun false]
  | failedStep (rest : List Event) : ShapeOK rest →
      ShapeOK (Event.nextCall true :: Event.bodyRun true :: rest)

/-- Go `context.Context` values as relevant to the context-aware variant of
the package: `context.Background()` or a cancellable child created by
`context.WithCancel(parent)`. -/
inductive GoContext where
  | background
  | withCancel (parent : GoContext)

/-- Model of `SubT` in the context-aware variant (src/unnamed/part_000 lines 44-53):
the retry.go fields plus the attempt's context and cancel function.  The
cancel function is modelled by `hasCancel` (`cancelCtx != nil`) and
`canceled` (whether it has been called on the current context). -/
structure SubTC where
  logs : List String
  failed : Bool
  cleanups : List (List CStmt)
  ctx : Option GoContext
  hasCancel : Bool
  canceled : Bool

/-- Model of `SubT.reset(baseCtx)` in the context-aware variant (part_000 lines
55-64): clears logs, failed flag and cleanup stack, and installs a fresh
cancellable context derived from `baseCtx`.  The result does not depend on
the previous state. -/
def SubTC.reset (_t : SubTC) (baseCtx : GoContext) : SubTC :=
  ⟨[], false, [], some (GoContext.withCancel baseCtx), true, false⟩

/-- Base-context selection of `RunWith` in the context-aware variant
(part_000 lines 164-167): the outer context's `Context()` when the outer
`TestingT` exposes one, otherwise `context.Background()`. -/
def baseCtxOf (outerCtx : Option GoContext) : GoContext :=
  match outerCtx with
  | some c => c
  | none => GoContext.background

/-- The mutable fields of `SubT` shared between the orchestrator's task and
the body's task. -/
inductive SField where
  | sfLogs
  | sfFailed
  | sfCleanups
deriving DecidableEq

/-- Micro-steps of a `SubT` method, in source order: mutex acquire/release
and field writes. -/
inductive LockStep where
  | acquire
  | release
  | write (f : SField)

/-- Steps of `SubT.log` (retry.go lines 54-59): `mu.Lock()`, append to
`logs`, deferred `mu.Unlock()`. -/
def logMethodSteps : List LockStep :=
  [.acquire, .write .sfLogs, .release]

/-- Steps of `SubT.Cleanup` (retry.go lines 79-84): `mu.Lock()`, append to
`cleanups`, deferred `mu.Unlock()`. -/
def cleanupMethodSteps : List LockStep :=
  [.acquire, .write .sfCleanups, .release]

/-- Steps of `SubT.reset` (retry.go lines 45-52): `mu.Lock()`, write all
three fields, deferred `mu.Unlock()`. -/
def resetMethodSteps : List LockStep :=
  [.acquire, .write .sfLogs, .write .sfFailed, .write .sfCleanups, .release]

/-- Steps of `SubT.Fail` (retry.go lines 121-123): a bare `t.failed = true`,
no mutex use. -/
def failMethodSteps : List LockStep :=
  [.write .sfFailed]

/-- Steps of `SubT.FailNow` (retry.go lines 126-129): a bare
`t.failed = true` followed by `runtime.Goexit()`, no mutex use. -/
def failNowMethodSteps : List LockStep :=
  [.write .sfFailed]

/-- Steps of `SubT.Error` (retry.go lines 97-100): `log` then `Fail`. -/
def errorMethodSteps : List LockStep :=
  logMethodSteps ++ failMethodSteps

/-- Steps of `SubT.Fatal` (retry.go lines 109-112): `log` then `FailNow`. -/
def fatalMethodSteps : List LockStep :=
  logMethodSteps ++ failNowMethodSteps

/-- Holds when every write to field `f` in the step list happens while the
mutex is held; `held` is the mutex state on entry. -/
def writesLockedOn (f : SField) : List LockStep → Bool → Bool
  | [], _ => true
  | .acquire :: rest, _ => writesLockedOn f rest true
  | .release :: rest, _ => writesLockedOn f rest false
  | .write g :: rest, held =>
    (!(decide (g = f)) || held) && writesLockedOn f rest held

/-- A method's writes to field `f` are all performed under the mutex
(methods are entered with the mutex free). -/
def methodWritesLocked (f : SField) (steps : List LockStep) : Bool :=
  writesLockedOn f steps false

end Retry

namespace Retry

/-- Interpreting a concatenated body: if the first part aborts, the second
part never runs; otherwise the second part runs from the first part's final
state. -/
theorem runStmts_append (xs ys : List Stmt) (t : SubT) :
    runStmts (xs ++ ys) t =
      if (runStmts xs t).2 then runStmts xs t else runStmts ys (runStmts xs t).1 := by
  induction xs generalizing t with
  | nil => simp [runStmts]
  | cons s rest ih => cases s <;> simp [runStmts, ih]

/-- Claim C1: a body that reaches `FailNow` (via `Fatal`) has its attempt
marked failed, executes no statement after the call (the result does not
depend on `post`), the termination is confined to the attempt's task — the
orchestrating loop of `RunWith` observes the join, continues querying the
policy and returns normally — and a body that calls `Fatal("msg")` records
exactly the one log line `"msg"` in the attempt's buffer. -/
theorem claim_C1 (front post : List Stmt) (args : List String) (t : SubT)
    (h : (runStmts front t).2 = false) :
    runStmts (front ++ Stmt.sfatal args :: post) t
        = ((runStmts front t).1.Fatal args, true)
    ∧ (attempt [Stmt.sfatal ["msg"]] t).logs = ["msg"]
    ∧ (attempt [Stmt.sfatal ["msg"]] t).failed = true
    ∧ RunWith (fun i => decide (i = 0)) [Stmt.sfatal ["msg"]] 3
        = some ([OuterCall.olog "msg", OuterCall.ofailNow],
            [Event.nextCall true, Event.bodyRun true, Event.nextCall false]) := by
  refine ⟨?_, rfl, rfl, rfl⟩
  rw [runStmts_append, h]
  simp [runStmts]

/-- Witness for claim C1 at a concrete input: the empty non-aborting front,
a `Fatal` call, and a trailing statement that never executes. -/
theorem claim_C1_witness :
    (runStmts ([] : List Stmt) SubT.init).2 = false
    ∧ runStmts (([] : List Stmt) ++ Stmt.sfatal ["m"] :: [Stmt.slog ["after"]]) SubT.init
        = ((runStmts ([] : List Stmt) SubT.init).1.Fatal ["m"], true) :=
  ⟨rfl, (claim_C1 [] [Stmt.slog ["after"]] ["m"] SubT.init rfl).1⟩

/-- Claim C2 counterexample: `NewCounter(0, sleep)` denies the very first
`Next()` call (`count >= attempts` holds with `0 >= 0`), so the body does not
run at least once for a zero-attempts counter, contrary to the claim. -/
theorem claim_C2_cex : ((NewCounter 0 123).Next).1 = false := rfl

/-- Claim C2 (amended): a `Timer` policy's first `Next()` call returns true
for every timeout, including zero and negative; a `Counter` policy's first
call returns true exactly when `attempts` is positive — for zero or negative
`attempts` the very first call already returns false. -/
theorem claim_C2_amended :
    (∀ (timeout sleep now : Int), ((NewTimer timeout sleep).Next now).1 = true)
    ∧ (∀ (attempts sleep : Int),
        ((NewCounter attempts sleep).Next).1 = true ↔ 0 < attempts) := by
  constructor
  · intro timeout sleep now
    rfl
  · intro attempts sleep
    by_cases h : (0 : Int) ≥ attempts
    · simp only [NewCounter, Counter.Next, if_pos h]
      constructor
      · intro hx
        exact absurd hx (by simp)
      · intro hx
        omega
    · simp only [NewCounter, Counter.Next, if_neg h]
      constructor
      · intro _
        omega
      · intro _
        split <;> rfl

/-- Witness for claim C2 (amended) at concrete inputs: a negative-timeout
timer and a one-attempt counter both permit their first call, while a
negative-attempts counter denies it. -/
theorem claim_C2_witness :
    ((NewTimer (-5) 0).Next 100).1 = true
    ∧ ((NewCounter 1 0).Next).1 = true
    ∧ ¬(((NewCounter (-1) 5).Next).1 = true) :=
  ⟨claim_C2_amended.1 (-5) 0 100,
    (claim_C2_amended.2 1 0).mpr (by decide),
    fun hx => absurd ((claim_C2_amended.2 (-1) 5).mp hx) (by decide)⟩

/-- Equality of result pairs of a policy call up to propositional equivalence
of the conditions. -/
theorem callPairCongr (P Q A B : Prop) [Decidable P] [Decidable Q] [Decidable A]
    [Decidable B] (hPQ : P ↔ Q) (hAB : A ↔ B) (s : Option Int) :
    ((decide P, if A then s else none) : Bool × Option Int)
      = (decide Q, if B then s else none) := by
  rw [decide_eq_decide.mpr hPQ, if_congr hAB rfl rfl]

/-- The `i`-th `Next()` call on a counter in state `c` returns true exactly
when `c.count + i < c.attempts`, and sleeps exactly when it returns true with
a positive running count. -/
theorem counterCalls_getElem (n : Nat) :
    ∀ (c : Counter) (i : Nat), i < n →
      (counterCalls c n)[i]? =
        some (decide (c.count + (i : Int) < c.attempts),
          if 0 < c.count + (i : Int) ∧ c.count + (i : Int) < c.attempts then some c.sleep
          else none) := by
  induction n with
  | zero => exact fun c i h => absurd h (Nat.not_lt_zero i)
  | succ n ih =>
    intro c i h
    by_cases hc : c.count ≥ c.attempts
    · have hnext : c.Next = (false, c, none) := by simp [Counter.Next, hc]
      match i with
      | 0 =>
        have hP : ¬(c.count + ((0 : Nat) : Int) < c.attempts) := by omega
        have hQ : ¬(0 < c.count + ((0 : Nat) : Int)
            ∧ c.count + ((0 : Nat) : Int) < c.attempts) := by omega
        simp only [counterCalls, List.getElem?_cons_zero, hnext]
        rw [decide_eq_false hP, if_neg hQ]
      | i' + 1 =>
        have hrec := ih c i' (by omega)
        simp only [counterCalls, hnext, List.getElem?_cons_succ]
        rw [hrec]
        exact congrArg some (callPairCongr _ _ _ _ (by omega) (by omega) _)
    · have hnext : c.Next = (true, { c with count := c.count + 1 },
          if c.count > 0 then some c.sleep else none) := by
        simp only [Counter.Next, hc, if_false]
        split <;> simp_all
      match i with
      | 0 =>
        have hP : c.count + ((0 : Nat) : Int) < c.attempts := by omega
        have hQ : (0 < c.count + ((0 : Nat) : Int)
            ∧ c.count + ((0 : Nat) : Int) < c.attempts) ↔ c.count > 0 := by
          constructor
          · intro hx; omega
          · intro hx; omega
        simp only [counterCalls, List.getElem?_cons_zero, hnext]
        rw [decide_eq_true hP, if_congr hQ rfl rfl]
      | i' + 1 =>
        have hrec := ih { c with count := c.count + 1 } i' (by omega)
        simp only [counterCalls, hnext, List.getElem?_cons_succ]
        rw [hrec]
        exact congrArg some (callPairCongr _ _ _ _ (by push_cast; omega)
          (by constructor <;> (intro hx; push_cast at hx ⊢; omega)) _)

/-- Claim C4: a `Counter` built by `NewCounter(N, s)` returns true on exactly
the first `N` calls and false on every later call, sleeps `s` before every
true-returning call except the first, and never sleeps before a
false-returning call. -/
theorem claim_C4 (N s : Int) (n i : Nat) (h : i < n) :
    (counterCalls (NewCounter N s) n)[i]? =
      some (decide ((i : Int) < N),
        if 0 < (i : Int) ∧ (i : Int) < N then some s else none) := by
  have hx := counterCalls_getElem n (NewCounter N s) i h
  simpa [NewCounter] using hx

/-- Witness for claim C4 at a concrete input: the second call of a
two-attempt counter returns true and sleeps the configured duration. -/
theorem claim_C4_witness :
    (1 < 3) ∧ (counterCalls (NewCounter 2 7) 3)[1]? =
      some (decide ((1 : Int) < 2), if 0 < (1 : Int) ∧ (1 : Int) < 2 then some 7 else none) :=
  ⟨by decide, claim_C4 2 7 3 1 (by decide)⟩

/-- Once a timer has a recorded stop time in the past of every remaining call
time, every remaining call returns false. -/
theorem timerFalseForever (ts : List Int) :
    ∀ (t : Timer) (s0 : Int), t.stop = some s0 → (∀ x ∈ ts, s0 < x) →
      timerResults t ts = List.replicate ts.length false := by
  induction ts with
  | nil => intro t s0 _ _; rfl
  | cons now rest ih =>
    intro t s0 hstop hall
    have hgt : now > s0 := hall now (List.mem_cons_self now rest)
    have hnext : t.Next now = (false, t, none) := by simp [Timer.Next, hstop, hgt]
    simp only [timerResults, timerCalls, hnext, List.map_cons, List.length_cons,
      List.replicate_succ, List.cons.injEq]
    exact ⟨trivial, ih t s0 hstop fun x hx => hall x (List.mem_cons_of_mem now hx)⟩

/-- For a timer queried at nondecreasing times, a false result is terminal:
every later call also returns false. -/
theorem timer_false_stable (ts : List Int) :
    ∀ (t : Timer), ts.Pairwise (· ≤ ·) → ∀ i j : Nat, i < j → j < ts.length →
      (timerResults t ts)[i]? = some false → (timerResults t ts)[j]? = some false := by
  induction ts with
  | nil => intro t _ i j _ hj _; simp at hj
  | cons now rest ih =>
    intro t hpw i j hij hj hfi
    have hpw' : rest.Pairwise (· ≤ ·) := (List.pairwise_cons.mp hpw).2
    have hall : ∀ x ∈ rest, now ≤ x := (List.pairwise_cons.mp hpw).1
    cases hstop : t.stop with
    | none =>
      have hnext : t.Next now = (true, { t with stop := some (now + t.timeout) }, none) := by
        simp [Timer.Next, hstop]
      match i, j with
      | 0, _ =>
        exfalso
        simp [timerResults, timerCalls, hnext] at hfi
      | i' + 1, j' + 1 =>
        simp only [timerResults, timerCalls, hnext, List.map_cons,
          List.getElem?_cons_succ] at hfi ⊢
        exact ih { t with stop := some (now + t.timeout) } hpw' i' j' (by omega)
          (by simpa using hj) hfi
    | some s0 =>
      by_cases hgt : now > s0
      · have hrep := timerFalseForever rest t s0 hstop
          fun x hx => lt_of_lt_of_le hgt (hall x hx)
        match j with
        | j' + 1 =>
          have hnext : t.Next now = (false, t, none) := by simp [Timer.Next, hstop, hgt]
          simp only [timerResults, timerCalls, hnext, List.map_cons, List.getElem?_cons_succ]
          rw [show (timerCalls t rest).map (fun x => x.1) = timerResults t rest from rfl, hrep]
          have hlen : j' < rest.length := by simpa using hj
          simp [List.getElem?_replicate, hlen]
      · have hnext : t.Next now = (true, t, some t.sleep) := by simp [Timer.Next, hstop, hgt]
        match i, j with
        | 0, _ =>
          exfalso
          simp [timerResults, timerCalls, hnext] at hfi
        | i' + 1, j' + 1 =>
          simp only [timerResults, timerCalls, hnext, List.map_cons,
            List.getElem?_cons_succ] at hfi ⊢
          exact ih t hpw' i' j' (by omega) (by simpa using hj) hfi

/-- Claim C8: for both built-in policies a false `Next()` result is terminal:
in any call sequence on one policy value (with nondecreasing call times for
the timer), once some call returns false every later call returns false. -/
theorem claim_C8 :
    (∀ (c : Counter) (n i j : Nat), i < j → j < n →
        (counterResults c n)[i]? = some false → (counterResults c n)[j]? = some false)
    ∧ (∀ (t : Timer) (ts : List Int), ts.Pairwise (· ≤ ·) → ∀ i j : Nat, i < j →
        j < ts.length →
        (timerResults t ts)[i]? = some false → (timerResults t ts)[j]? = some false) := by
  constructor
  · intro c n i j hij hjn hfi
    have hi := counterCalls_getElem n c i (by omega)
    have hj := counterCalls_getElem n c j hjn
    unfold counterResults at hfi ⊢
    rw [List.getElem?_map, hi] at hfi
    rw [List.getElem?_map, hj]
    have hdi : decide (c.count + (i : Int) < c.attempts) = false := by
      by_contra hcon
      rw [Bool.not_eq_false] at hcon
      simp [hcon] at hfi
    have hni : ¬(c.count + (i : Int) < c.attempts) := of_decide_eq_false hdi
    have hnj : ¬(c.count + (j : Int) < c.attempts) := by omega
    simp [decide_eq_false hnj]
  · exact fun t ts hpw i j hij hj hfi => timer_false_stable ts t hpw i j hij hj hfi

/-- Witness for claim C8 at concrete inputs: a one-attempt counter observed
for three calls, and a five-unit timer queried at times 0, 10, 20. -/
theorem claim_C8_witness :
    ((counterResults (NewCounter 1 5) 3)[1]? = some false
      → (counterResults (NewCounter 1 5) 3)[2]? = some false)
    ∧ ((timerResults (NewTimer 5 1) [0, 10, 20])[1]? = some false
      → (timerResults (NewTimer 5 1) [0, 10, 20])[2]? = some false) :=
  ⟨claim_C8.1 (NewCounter 1 5) 3 1 2 (by decide) (by decide),
    claim_C8.2 (NewTimer 5 1) [0, 10, 20] (by decide) 1 2 (by decide) (by decide)⟩

/-- The shared `SubT` after the `RunWith` loop: if the policy permitted at
least one attempt it is the (deterministic) attempt result, otherwise it is
the untouched zero value.  Every attempt starts from `reset`, which wipes the
whole state, so all attempts of one run end in the same state. -/
theorem runWithLoop_final (fn : List Stmt) (p : Nat → Bool) :
    ∀ (fuel i : Nat) (tt ttf : SubT) (tr : List Event),
      runWithLoop fn p fuel i tt = some (ttf, tr) →
      ttf = if p i then attempt fn SubT.init else tt := by
  intro fuel
  induction fuel with
  | zero => intro i tt ttf tr h; simp [runWithLoop] at h
  | succ fuel ih =>
    intro i tt ttf tr h
    have hconst : attempt fn tt = attempt fn SubT.init := rfl
    cases hp : p i with
    | false =>
      simp only [runWithLoop, hp, Bool.false_eq_true, if_false] at h
      rw [Option.some.injEq, Prod.mk.injEq] at h
      simp [hp, h.1.symm]
    | true =>
      simp only [runWithLoop, hp, if_true] at h
      by_cases hf : (attempt fn tt).failed
      · rw [if_pos hf] at h
        cases hrec : runWithLoop fn p fuel (i + 1) (attempt fn tt) with
        | none => rw [hrec] at h; exact absurd h (by simp)
        | some pr =>
          obtain ⟨ttf', tr'⟩ := pr
          rw [hrec] at h
          rw [Option.some.injEq, Prod.mk.injEq] at h
          have hfin := ih (i + 1) (attempt fn tt) ttf' tr' hrec
          rw [if_pos rfl, ← h.1]
          cases hq : p (i + 1) with
          | false => rw [hq] at hfin; simp at hfin; rw [hfin, hconst]
          | true => rw [hq] at hfin; simpa using hfin
      · rw [if_neg hf] at h
        rw [Option.some.injEq, Prod.mk.injEq] at h
        rw [if_pos rfl, ← h.1, hconst]

/-- Every successful trace of the `RunWith` loop has the `ShapeOK` form. -/
theorem runWithLoop_shape (fn : List Stmt) (p : Nat → Bool) :
    ∀ (fuel i : Nat) (tt : SubT) (out : SubT × List Event),
      runWithLoop fn p fuel i tt = some out → ShapeOK out.2 := by
  intro fuel
  induction fuel with
  | zero => intro i tt out h; simp [runWithLoop] at h
  | succ fuel ih =>
    intro i tt out h
    cases hp : p i with
    | false =>
      simp only [runWithLoop, hp, Bool.false_eq_true, if_false] at h
      rw [Option.some.injEq] at h
      rw [← h]
      exact ShapeOK.stop
    | true =>
      simp only [runWithLoop, hp, if_true] at h
      by_cases hf : (attempt fn tt).failed
      · rw [if_pos hf] at h
        cases hrec : runWithLoop fn p fuel (i + 1) (attempt fn tt) with
        | none => rw [hrec] at h; exact absurd h (by simp)
        | some pr =>
          rw [hrec, Option.some.injEq] at h
          rw [← h]
          exact ShapeOK.failedStep pr.2 (ih (i + 1) (attempt fn tt) pr hrec)
      · rw [if_neg hf, Option.some.injEq] at h
        rw [← h]
        exact ShapeOK.success

/-- A `ShapeOK` trace starts with a policy query. -/
theorem ShapeOK.head {tr : List Event} (h : ShapeOK tr) :
    ∃ b tl, tr = Event.nextCall b :: tl := by
  cases h with
  | stop => exact ⟨false, [], rfl⟩
  | success => exact ⟨true, [Event.bodyRun false], rfl⟩
  | failedStep rest hr => exact ⟨true, Event.bodyRun true :: rest, rfl⟩

/-- In a `ShapeOK` trace there is exactly one body invocation per permitting
policy answer. -/
theorem ShapeOK.count_eq {tr : List Event} (h : ShapeOK tr) :
    tr.countP Event.isBodyRun = tr.countP Event.isPermit := by
  induction h with
  | stop => rfl
  | success => rfl
  | failedStep rest hr ih => simp [List.countP_cons, Event.isBodyRun, Event.isPermit, ih]

/-- In a `ShapeOK` trace a passing attempt is the final event. -/
theorem ShapeOK.success_last {tr : List Event} (h : ShapeOK tr) :
    ∀ xs ys, tr = xs ++ Event.bodyRun false :: ys → ys = [] := by
  induction h with
  | stop =>
    intro xs ys hx
    rcases xs with _ | ⟨a, xs⟩ <;> simp_all
  | success =>
    intro xs ys hx
    rcases xs with _ | ⟨a, _ | ⟨b, xs⟩⟩ <;> simp_all
  | failedStep rest hr ih =>
    intro xs ys hx
    match xs with
    | [] => simp at hx
    | [a] => simp at hx
    | a :: b :: xs' =>
      rw [List.cons_append, List.cons_append] at hx
      have h3 : Event.nextCall true :: Event.bodyRun true :: rest
          = a :: b :: (xs' ++ Event.bodyRun false :: ys) := hx
      injection h3 with h1 h2
      injection h2 with h2a h2b
      exact ih xs' ys h2b

/-- In a `ShapeOK` trace every failed attempt is followed by another policy
query. -/
theorem ShapeOK.failed_then_next {tr : List Event} (h : ShapeOK tr) :
    ∀ i, tr[i]? = some (Event.bodyRun true) →
      ∃ b, tr[i + 1]? = some (Event.nextCall b) := by
  induction h with
  | stop => intro i hx; rcases i with _ | i <;> simp_all
  | success => intro i hx; rcases i with _ | _ | i <;> simp_all
  | failedStep rest hr ih =>
    intro i hx
    match i with
    | 0 => simp_all
    | 1 =>
      obtain ⟨b, tl, htl⟩ := hr.head
      exact ⟨b, by simp [htl]⟩
    | n + 2 =>
      simp only [List.getElem?_cons_succ] at hx ⊢
      exact ih n hx

/-- Claim C3: when `RunWith` returns, the outer context has received exactly
the log lines buffered during the final attempt, in order, followed by
`FailNow` exactly when that attempt failed; when the policy never permits an
attempt the outer context receives nothing. -/
theorem claim_C3 (p : Nat → Bool) (fn : List Stmt) (fuel : Nat)
    (res : List OuterCall × List Event) (h : RunWith p fn fuel = some res) :
    res.1 = if p 0 then
        (attempt fn SubT.init).logs.map OuterCall.olog
          ++ (if (attempt fn SubT.init).failed then [OuterCall.ofailNow] else [])
      else [] := by
  unfold RunWith at h
  cases hrec : runWithLoop fn p fuel 0 SubT.init with
  | none => rw [hrec] at h; exact absurd h (by simp)
  | some pr =>
    obtain ⟨tt, tr⟩ := pr
    rw [hrec, Option.some.injEq] at h
    have hfin := runWithLoop_final fn p fuel 0 SubT.init tt tr hrec
    rw [← h]
    cases hp : p 0 with
    | true =>
      rw [hp] at hfin
      simp only [if_true] at hfin
      rw [hfin]
      rfl
    | false =>
      rw [hp] at hfin
      simp only [Bool.false_eq_true, if_false] at hfin
      rw [hfin]
      rfl

/-- Witness for claim C3 at a concrete input: a passing body logging one line
under a one-permission policy. -/
theorem claim_C3_witness :
    RunWith (fun i => decide (i = 0)) [Stmt.slog ["hello"]] 3
        = some ([OuterCall.olog "hello"], [Event.nextCall true, Event.bodyRun false])
    ∧ ([OuterCall.olog "hello"] : List OuterCall) =
        if (fun i => decide (i = 0)) 0 then
          (attempt [Stmt.slog ["hello"]] SubT.init).logs.map OuterCall.olog
            ++ (if (attempt [Stmt.slog ["hello"]] SubT.init).failed then [OuterCall.ofailNow]
                else [])
        else [] :=
  ⟨rfl, claim_C3 (fun i => decide (i = 0)) [Stmt.slog ["hello"]] 3
    ([OuterCall.olog "hello"], [Event.nextCall true, Event.bodyRun false]) rfl⟩

/-- Claim C5: in any completed `RunWith` run the body is invoked exactly once
per permitting `Next()` result, a passing attempt is the last event of the
run (no further policy queries or body invocations), and every failed attempt
is followed by another policy query. -/
theorem claim_C5 (p : Nat → Bool) (fn : List Stmt) (fuel : Nat)
    (res : List OuterCall × List Event) (h : RunWith p fn fuel = some res) :
    res.2.countP Event.isBodyRun = res.2.countP Event.isPermit
    ∧ (∀ xs ys, res.2 = xs ++ Event.bodyRun false :: ys → ys = [])
    ∧ (∀ i, res.2[i]? = some (Event.bodyRun true) →
        ∃ b, res.2[i + 1]? = some (Event.nextCall b)) := by
  unfold RunWith at h
  cases hrec : runWithLoop fn p fuel 0 SubT.init with
  | none => rw [hrec] at h; exact absurd h (by simp)
  | some pr =>
    rw [hrec, Option.some.injEq] at h
    have hsh := runWithLoop_shape fn p fuel 0 SubT.init pr hrec
    have h2 : res.2 = pr.2 := by rw [← h]
    rw [h2]
    exact ⟨hsh.count_eq, hsh.success_last, hsh.failed_then_next⟩

/-- Witness for claim C5 at a concrete input: a failing body under a
one-permission policy; one permit, one body run, loop queried again. -/
theorem claim_C5_witness :
    RunWith (fun i => decide (i = 0)) [Stmt.sfail] 3
        = some ([OuterCall.ofailNow],
            [Event.nextCall true, Event.bodyRun true, Event.nextCall false])
    ∧ ([Event.nextCall true, Event.bodyRun true,
          Event.nextCall false] : List Event).countP Event.isBodyRun
        = ([Event.nextCall true, Event.bodyRun true,
            Event.nextCall false] : List Event).countP Event.isPermit :=
  ⟨rfl, (claim_C5 (fun i => decide (i = 0)) [Stmt.sfail] 3
    ([OuterCall.ofailNow],
      [Event.nextCall true, Event.bodyRun true, Event.nextCall false]) rfl).1⟩

/-- A cleanup body that registers no further cleanup leaves the stack
untouched. -/
theorem runCStmts_cleanups_of_plain (b : List CStmt) :
    ∀ t : SubT, b.all CStmt.isPlain = true → (runCStmts b t).cleanups = t.cleanups := by
  induction b with
  | nil => intro t _; rfl
  | cons s rest ih =>
    intro t hall
    rw [List.all_cons, Bool.and_eq_true] at hall
    cases s with
    | clog args => exact ih (t.Log args) hall.2
    | cfail => exact ih t.Fail hall.2
    | ccleanup fn => exact absurd hall.1 (by simp [CStmt.isPlain])

/-- A cleanup body that registers no further cleanup has weight zero. -/
theorem cweightList_of_plain (b : List CStmt) :
    b.all CStmt.isPlain = true → cweightList b = 0 := by
  induction b with
  | nil => intro _; simp [cweightList]
  | cons s rest ih =>
    intro hall
    rw [List.all_cons, Bool.and_eq_true] at hall
    cases s with
    | clog args => simpa [cweightList] using ih hall.2
    | cfail => simpa [cweightList] using ih hall.2
    | ccleanup fn => exact absurd hall.1 (by simp [CStmt.isPlain])

/-- On a stack of plain cleanups the pop count is the stack length. -/
theorem stackMeasure_of_plain (cs : List (List CStmt)) :
    (∀ b ∈ cs, b.all CStmt.isPlain = true) → stackMeasure cs = cs.length := by
  induction cs with
  | nil => intro _; rfl
  | cons b rest ih =>
    intro hall
    have hb := cweightList_of_plain b (hall b (List.mem_cons_self b rest))
    have hr := ih fun x hx => hall x (List.mem_cons_of_mem b hx)
    simp [stackMeasure, hb, hr]
    omega

/-- Lemma: `stackMeasure` distributes over append. -/
theorem stackMeasure_append (xs ys : List (List CStmt)) :
    stackMeasure (xs ++ ys) = stackMeasure xs + stackMeasure ys := by
  induction xs with
  | nil => simp [stackMeasure]
  | cons b rest ih => simp [stackMeasure, ih]; omega

/-- One iteration of the cleanup loop on a nonempty stack: pop the last
cleanup, run it, continue. -/
theorem runCleanupsFuel_step (f : Nat) (t : SubT) (b : List CStmt)
    (hlast : t.cleanups.getLast? = some b) :
    runCleanupsFuel (f + 1) t =
      ((runCleanupsFuel f (runCStmts b { t with cleanups := t.cleanups.dropLast })).1,
        b :: (runCleanupsFuel f (runCStmts b
          { t with cleanups := t.cleanups.dropLast })).2) := by
  simp [runCleanupsFuel, hlast]

/-- The cleanup loop on a stack of plain cleanups (given in pop order `rs`)
invokes exactly the stacked cleanups, most recently registered first, and
empties the stack. -/
theorem runCleanupsFuel_plain :
    ∀ (rs : List (List CStmt)) (fuel : Nat) (t : SubT),
      t.cleanups = rs.reverse → (∀ b ∈ rs, b.all CStmt.isPlain = true) →
      rs.length ≤ fuel →
      (runCleanupsFuel fuel t).2 = rs ∧ (runCleanupsFuel fuel t).1.cleanups = [] := by
  intro rs
  induction rs with
  | nil =>
    intro fuel t hcl _ _
    cases fuel with
    | zero => exact ⟨rfl, by simpa [runCleanupsFuel] using hcl⟩
    | succ f =>
      rw [List.reverse_nil] at hcl
      simp [runCleanupsFuel, hcl]
  | cons b rest ih =>
    intro fuel t hcl hplain hlen
    match fuel with
    | f + 1 =>
      have hcl' : t.cleanups = rest.reverse ++ [b] := by simpa using hcl
      have hlast : t.cleanups.getLast? = some b := by
        rw [hcl']; exact List.getLast?_concat _
      have hdrop : t.cleanups.dropLast = rest.reverse := by
        rw [hcl']; exact List.dropLast_concat
      have hb : b.all CStmt.isPlain = true := hplain b (List.mem_cons_self b rest)
      have hrest : ∀ x ∈ rest, x.all CStmt.isPlain = true :=
        fun x hx => hplain x (List.mem_cons_of_mem b hx)
      have ht2 : (runCStmts b { t with cleanups := t.cleanups.dropLast }).cleanups
          = rest.reverse := by
        rw [runCStmts_cleanups_of_plain b _ hb]
        exact hdrop
      have hlen' : rest.length ≤ f := by
        rw [List.length_cons] at hlen; omega
      obtain ⟨htr, hemp⟩ := ih f _ ht2 hrest hlen'
      rw [runCleanupsFuel_step f t b hlast]
      exact ⟨by rw [htr], hemp⟩

/-- Claim C6: in every attempt whose registered cleanups do not themselves
register further cleanups, `runCleanups` invokes each cleanup registered via
`Cleanup` exactly once, in strict reverse registration order, until the stack
is empty — also when the body aborted via `FailNow` mid-run, since the body
may abort (the abort flag of `runStmts` is unconstrained here). -/
theorem claim_C6 (fn : List Stmt) (tt : SubT)
    (h : ∀ b ∈ (runStmts fn tt.reset).1.cleanups, b.all CStmt.isPlain = true) :
    ((runStmts fn tt.reset).1.runCleanups).2 = (runStmts fn tt.reset).1.cleanups.reverse
    ∧ ((runStmts fn tt.reset).1.runCleanups).1.cleanups = [] := by
  have hplain : ∀ b ∈ (runStmts fn tt.reset).1.cleanups.reverse,
      b.all CStmt.isPlain = true := fun b hb => h b (List.mem_reverse.mp hb)
  have hlen : (runStmts fn tt.reset).1.cleanups.reverse.length
      ≤ stackMeasure (runStmts fn tt.reset).1.cleanups := by
    rw [stackMeasure_of_plain _ h, List.length_reverse]
  exact runCleanupsFuel_plain (runStmts fn tt.reset).1.cleanups.reverse
    (stackMeasure (runStmts fn tt.reset).1.cleanups) (runStmts fn tt.reset).1
    (by rw [List.reverse_reverse]) hplain hlen

/-- Witness for claim C6 at a concrete input: a body registering two plain
cleanups and then aborting via `Fatal`; the cleanups run in reverse order and
the stack empties. -/
theorem claim_C6_witness :
    (∀ b ∈ (runStmts [Stmt.scleanup [CStmt.clog ["a"]], Stmt.scleanup [CStmt.cfail],
        Stmt.sfatal ["x"]] (SubT.reset SubT.init)).1.cleanups, b.all CStmt.isPlain = true)
    ∧ ((runStmts [Stmt.scleanup [CStmt.clog ["a"]], Stmt.scleanup [CStmt.cfail],
          Stmt.sfatal ["x"]] (SubT.reset SubT.init)).1.runCleanups).2
        = (runStmts [Stmt.scleanup [CStmt.clog ["a"]], Stmt.scleanup [CStmt.cfail],
            Stmt.sfatal ["x"]] (SubT.reset SubT.init)).1.cleanups.reverse
    ∧ ((runStmts [Stmt.scleanup [CStmt.clog ["a"]], Stmt.scleanup [CStmt.cfail],
          Stmt.sfatal ["x"]] (SubT.reset SubT.init)).1.runCleanups).1.cleanups = [] := by
  exact ⟨by decide, claim_C6 [Stmt.scleanup [CStmt.clog ["a"]], Stmt.scleanup [CStmt.cfail],
    Stmt.sfatal ["x"]] SubT.init (by decide)⟩

/-- Claim C10: a cleanup that itself registers a further cleanup `g` while
running inside `runCleanups` has `g` popped and invoked before `runCleanups`
returns; the late registration is not lost and the loop still empties the
stack. -/
theorem claim_C10 (cs : List (List CStmt)) (g : List CStmt) (t : SubT)
    (hcl : t.cleanups = cs ++ [[CStmt.ccleanup g]])
    (hcs : ∀ b ∈ cs, b.all CStmt.isPlain = true)
    (hg : g.all CStmt.isPlain = true) :
    (t.runCleanups).2 = [CStmt.ccleanup g] :: g :: cs.reverse
    ∧ (t.runCleanups).1.cleanups = [] := by
  have hm : stackMeasure t.cleanups = cs.length + 2 := by
    rw [hcl, stackMeasure_append, stackMeasure_of_plain cs hcs]
    simp [stackMeasure, cweightList, cweightList_of_plain g hg]
  have hlast1 : t.cleanups.getLast? = some [CStmt.ccleanup g] := by
    rw [hcl]; exact List.getLast?_concat _
  have hdrop1 : t.cleanups.dropLast = cs := by
    rw [hcl]; exact List.dropLast_concat
  have hstep1 : runCStmts [CStmt.ccleanup g] { t with cleanups := t.cleanups.dropLast }
      = { t with cleanups := cs ++ [g] } := by
    simp [runCStmts, SubT.Cleanup, hdrop1]
  have hlast2 : (({ t with cleanups := cs ++ [g] } : SubT)).cleanups.getLast? = some g :=
    List.getLast?_concat _
  have hdrop2 : (({ t with cleanups := cs ++ [g] } : SubT)).cleanups.dropLast = cs :=
    List.dropLast_concat
  have ht3 : (runCStmts g { t with cleanups := cs }).cleanups = cs := by
    rw [runCStmts_cleanups_of_plain g _ hg]
  obtain ⟨htr, hemp⟩ := runCleanupsFuel_plain cs.reverse cs.length
    (runCStmts g { t with cleanups := cs })
    (by rw [List.reverse_reverse]; exact ht3)
    (fun b hb => hcs b (List.mem_reverse.mp hb))
    (by rw [List.length_reverse])
  unfold SubT.runCleanups
  rw [hm, show cs.length + 2 = cs.length + 1 + 1 from rfl,
    runCleanupsFuel_step (cs.length + 1) t [CStmt.ccleanup g] hlast1, hstep1,
    runCleanupsFuel_step cs.length { t with cleanups := cs ++ [g] } g hlast2]
  have hsimp : ({ t with cleanups := cs ++ [g] } : SubT).cleanups.dropLast = cs := hdrop2
  rw [hsimp]
  exact ⟨by rw [htr], hemp⟩

/-- Witness for claim C10 at a concrete input: a stack of one plain cleanup
below one cleanup that registers `g`; the trace shows `g` invoked before the
loop returns. -/
theorem claim_C10_witness :
    ((⟨[], false, [[CStmt.clog ["x"]], [CStmt.ccleanup [CStmt.clog ["g"]]]]⟩ :
        SubT).runCleanups).2
      = [CStmt.ccleanup [CStmt.clog ["g"]]] :: [CStmt.clog ["g"]]
          :: ([[CStmt.clog ["x"]]] : List (List CStmt)).reverse
    ∧ ((⟨[], false, [[CStmt.clog ["x"]], [CStmt.ccleanup [CStmt.clog ["g"]]]]⟩ :
        SubT).runCleanups).1.cleanups = [] :=
  claim_C10 [[CStmt.clog ["x"]]] [CStmt.clog ["g"]]
    ⟨[], false, [[CStmt.clog ["x"]], [CStmt.ccleanup [CStmt.clog ["g"]]]]⟩
    rfl (by intro b hb; simp at hb; simp [hb, CStmt.isPlain]) rfl

/-- Claim C7: before every attempt, `reset` leaves the shared state with an
empty log buffer, `failed = false` and an empty cleanup stack, installs a
fresh not-yet-canceled cancellation context derived from the base context —
which `RunWith` takes from the outer test context when one is exposed and
from `context.Background()` otherwise — and the post-`reset` state does not
depend on the pre-`reset` state, so nothing from attempt N is visible to
attempt N+1. -/
theorem claim_C7 (t t' : SubTC) (base : GoContext) :
    (t.reset base).logs = []
    ∧ (t.reset base).failed = false
    ∧ (t.reset base).cleanups = []
    ∧ (t.reset base).ctx = some (GoContext.withCancel base)
    ∧ (t.reset base).hasCancel = true
    ∧ (t.reset base).canceled = false
    ∧ t.reset base = t'.reset base
    ∧ baseCtxOf (some base) = base
    ∧ baseCtxOf none = GoContext.background :=
  ⟨rfl, rfl, rfl, rfl, rfl, rfl, rfl, rfl, rfl⟩

/-- Claim C9 counterexample: `SubT.Fail` writes the `failed` flag without
acquiring the `SubT` mutex, so the failed-flag mutation is not mutually
exclusive with other mutations via the lock, contrary to the claim. -/
theorem claim_C9_cex :
    methodWritesLocked SField.sfFailed failMethodSteps = false := rfl

/-- Claim C9 (amended): mutations of the log buffer (by `log`, hence `Log`,
`Logf`, `Error`, `Errorf`, `Fatal`, `Fatalf`), of the cleanup stack (by
`Cleanup`), and all of `reset`'s writes are performed while holding the
`SubT` mutex; but `Fail` and `FailNow` — and therefore the failure-marking
writes inside `Error`, `Errorf`, `Fatal` and `Fatalf` — write the `failed`
flag without acquiring the lock. -/
theorem claim_C9_amended :
    methodWritesLocked SField.sfLogs logMethodSteps = true
    ∧ methodWritesLocked SField.sfCleanups cleanupMethodSteps = true
    ∧ methodWritesLocked SField.sfLogs resetMethodSteps = true
    ∧ methodWritesLocked SField.sfFailed resetMethodSteps = true
    ∧ methodWritesLocked SField.sfCleanups resetMethodSteps = true
    ∧ methodWritesLocked SField.sfLogs errorMethodSteps = true
    ∧ methodWritesLocked SField.sfLogs fatalMethodSteps = true
    ∧ methodWritesLocked SField.sfFailed failMethodSteps = false
    ∧ methodWritesLocked SField.sfFailed failNowMethodSteps = false
    ∧ methodWritesLocked SField.sfFailed errorMethodSteps = false
    ∧ methodWritesLocked SField.sfFailed fatalMethodSteps = false := by
  decide

end Retry
